import Mathlib

/-!
Shallow embedding of the `savethis` repository's scope / finder / signature
code (`src/savethis/_ast_utils.py`, `_scope.py`, `_finder.py`) and proofs
about it.  Python strings are modeled as lists of characters
(`PyStr`), Python dicts as insertion-ordered association lists with
overwrite-on-existing-key semantics, and raising code as `Except`.
Source-segment extraction (`get_source_segment`, which lives outside the
embedded modules) is modeled by letting AST nodes carry the source text of
the segment they cover.
-/

set_option maxHeartbeats 1000000

namespace Savethis

/-- Python strings, modeled as lists of characters. -/
abbrev PyStr := List Char

/-- The character `{` (written via its code point). -/
def braceL : Char := Char.ofNat 123

/-- The character `}` (written via its code point). -/
def braceR : Char := Char.ofNat 125

/-- The character `'` (written via its code point). -/
def quoteC : Char := Char.ofNat 39

/-- Model of Python's `str.split(sep)` for a one-character separator. -/
def pySplit (sep : Char) : List Char → List (List Char)
  | [] => [[]]
  | c :: rest =>
    if c = sep then [] :: pySplit sep rest
    else
      match pySplit sep rest with
      | [] => [[c]]
      | w :: ws => (c :: w) :: ws

/-- Model of Python's `sep.join(parts)`. -/
def pyJoin (sep : List Char) : List (List Char) → List Char
  | [] => []
  | [x] => x
  | x :: y :: xs => x ++ sep ++ pyJoin sep (y :: xs)

/-- `_ast_utils.Position`: a dataclass of start/end line and column. -/
structure Position where
  lineno : Nat
  end_lineno : Nat
  col_offset : Nat
  end_col_offset : Nat
deriving DecidableEq, Repr

/-- `len(text[:k].split(sep)[-1])` for `sep`: length of the fragment after the
last separator of a prefix.  (`[-1]` is the last element; `pySplit` never
returns an empty list, so the default never fires.) -/
def lastFragLen (sep : Char) (l : PyStr) : Nat := ((pySplit sep l).getLastD []).length

/-- `_ast_utils.span_to_pos`: convert a character-offset span into a
`Position` by counting newlines before each offset, the column being the
length of the last line fragment of the prefix. -/
def span_to_pos (span : Nat × Nat) (text : PyStr) : Position :=
  { lineno := (text.take span.1).count '\n' + 1
  , end_lineno := (text.take span.2).count '\n' + 1
  , col_offset := lastFragLen '\n' (text.take span.1)
  , end_col_offset := lastFragLen '\n' (text.take span.2) }

/-- Python `dict` assignment `d[k] = v`: overwrite in place if the key is
present, else append (insertion order preserved). -/
def dictSet [DecidableEq K] (d : List (K × V)) (k : K) (v : V) : List (K × V) :=
  if d.any (fun p => p.1 = k) then
    d.map (fun p => if p.1 = k then (k, v) else p)
  else d ++ [(k, v)]

/-- Python `d.get(k)` / `d[k]` lookup. -/
def dictGet [DecidableEq K] (d : List (K × V)) (k : K) : Option V :=
  (d.find? (fun p => p.1 = k)).map (fun p => p.2)

/-- Python `k in d`. -/
def dictMem [DecidableEq K] (d : List (K × V)) (k : K) : Bool :=
  d.any (fun p => p.1 = k)

/-- Python `d.pop(k, None)`, the removal part. -/
def dictPop [DecidableEq K] (d : List (K × V)) (k : K) : List (K × V) :=
  d.filter (fun p => ¬ p.1 = k)

/-- A value stored in the assignment dict produced by
`Signature.get_call_assignments`: a source-text string, or (when
`dump_kwargs` is false) a dict of captured keyword arguments. -/
inductive PyVal where
  | str : PyStr → PyVal
  | dict : List (Option PyStr × PyStr) → PyVal
deriving DecidableEq, Repr

/-- `_scope.Signature`: a function signature (argument names and textual
default expressions). -/
structure Signature where
  argnames : List PyStr
  pos_only_argnames : List PyStr
  defaults : List (PyStr × PyStr)
  kwonly_defaults : List (PyStr × PyStr)
  vararg : Option PyStr
  kwarg : Option PyStr
  ignore_extra_kwargs : Bool
deriving DecidableEq, Repr

/-- `Signature.all_argnames`: positional-only names followed by the normal
argument names. -/
def Signature.all_argnames (s : Signature) : List PyStr :=
  s.pos_only_argnames ++ s.argnames

/-- The textual `f"{star_kwargs}.get('{name}', {val})"` expression built in the
defaults loop of `Signature.get_call_assignments`. -/
def starKwargsGetExpr (kw name val : PyStr) : PyStr :=
  kw ++ (".get(".toList) ++ [quoteC] ++ name ++ [quoteC] ++ (", ".toList) ++ val ++ (")".toList)

/-- The textual `f"'{k}': {v}"` item of the dumped `**kwargs` dict (Python
formats a `None` key as the text `None`). -/
def kwargItemText (k : Option PyStr) (v : PyStr) : PyStr :=
  [quoteC] ++ (match k with | none => ("None".toList) | some s => s) ++ [quoteC] ++ (": ".toList) ++ v

/-- `Signature.get_call_assignments`: statically bind a call's arguments to
this signature, producing the map from parameter name to assigned source
text.  Keyword-argument keys are `Option PyStr` because a `**kwargs` entry of
a parsed call carries key `None` before it is popped.  Mirrors
`_scope.Signature.get_call_assignments` step for step; the method-level
`ignore_extra_kwargs` parameter is accepted but, as in the source, the check
reads the field `self.ignore_extra_kwargs` instead. -/
def Signature.get_call_assignments (sig : Signature) (pos_args : List PyStr)
    (keyword_args : List (Option PyStr × PyStr)) (star_args : Option PyStr)
    (star_kwargs : Option PyStr) (dump_kwargs : Bool) (ignore_extra_kwargs2 : Bool) :
    Except PyStr (List (Option PyStr × PyVal)) := do
  let _ := star_args
  let _ := ignore_extra_kwargs2
  let res0 : List (Option PyStr × PyVal) :=
    sig.kwonly_defaults.foldl (fun r nv =>
      match dictGet keyword_args (some nv.1) with
      | some v => dictSet r (some nv.1) (PyVal.str v)
      | none => dictSet r (some nv.1) (PyVal.str nv.2)) []
  let res1 := (sig.all_argnames.zip pos_args).foldl
    (fun r nv => dictSet r (some nv.1) (PyVal.str nv.2)) res0
  let res2 := match sig.vararg with
    | some va =>
        dictSet res1 (some va)
          (PyVal.str ('[' :: pyJoin (", ".toList) (pos_args.drop sig.all_argnames.length) ++ [']']))
    | none => res1
  let rk := keyword_args.foldl
    (fun (rk : List (Option PyStr × PyVal) × List (Option PyStr × PyStr)) nv =>
      if dictMem rk.1 nv.1 then rk
      else match nv.1 with
        | some n =>
            if n ∈ sig.argnames then (dictSet rk.1 (some n) (PyVal.str nv.2), rk.2)
            else (rk.1, dictSet rk.2 nv.1 nv.2)
        | none => (rk.1, dictSet rk.2 none nv.2)) (res2, [])
  let res3 := rk.1
  let kwargs := rk.2
  let res4 ←
    if kwargs ≠ [] ∧ ¬ kwargs.all (fun p => p.1 = none) then
      match sig.kwarg with
      | none =>
          if ¬ sig.ignore_extra_kwargs then
            Except.error ("Extra keyword args given, but no **kwarg present.".toList)
          else pure res3
      | some kw =>
          if dump_kwargs then
            pure (dictSet res3 (some kw)
              (PyVal.str (braceL :: pyJoin (", ".toList) (kwargs.map (fun p => kwargItemText p.1 p.2)) ++ [braceR])))
          else pure (dictSet res3 (some kw) (PyVal.dict kwargs))
    else pure res3
  let res5 := sig.defaults.foldl (fun r nv =>
    if dictMem r (some nv.1) then r
    else match star_kwargs with
      | some kw => dictSet r (some nv.1) (PyVal.str (starKwargsGetExpr kw nv.1 nv.2))
      | none => dictSet r (some nv.1) (PyVal.str nv.2)) res4
  pure res5

/-- A keyword argument of a parsed call: `ast.keyword` (the key is `None` for
a `**kwargs` entry); the value is carried as its source segment. -/
structure KeywordArg where
  arg : Option PyStr
  value : PyStr
deriving DecidableEq, Repr

/-- A positional argument of a parsed call: plain, or starred (`*expr`); the
payload is the source segment of the (unstarred) value. -/
inductive CallArg where
  | plain : PyStr → CallArg
  | starred : PyStr → CallArg
deriving DecidableEq, Repr

/-- The expression of the first statement of the source handed to
`_get_call_signature`: either an `ast.Call`, or anything else. -/
inductive PyExpr where
  | call : List CallArg → List KeywordArg → PyExpr
  | notCall : PyExpr
deriving DecidableEq, Repr

/-- `PyExpr.isCall`: whether the parsed expression is an `ast.Call`. -/
def PyExpr.isCall : PyExpr → Bool
  | .call _ _ => true
  | .notCall => false

/-- The dynamically-sized tuple returned by `_scope._get_call_signature`: a
2-tuple `([], {})` on non-call input, a 4-tuple otherwise. -/
inductive CallSig where
  | pair : List PyStr → List (Option PyStr × PyStr) → CallSig
  | quad : List PyStr → List (Option PyStr × PyStr) → Option PyStr → Option PyStr → CallSig
deriving DecidableEq, Repr

/-- Number of components of the returned tuple. -/
def CallSig.arity : CallSig → Nat
  | .pair _ _ => 2
  | .quad _ _ _ _ => 4

/-- `_scope._get_call_signature`: extract positional arguments, keyword
arguments, `*args` and `**kwargs` source text from a parsed call expression
(`ast.parse(source).body[0].value`, modeled as the already-parsed
expression with argument source segments attached). -/
def _get_call_signature (e : PyExpr) : CallSig :=
  match e with
  | .notCall => .pair [] []
  | .call cargs kws =>
    let acc := cargs.foldl (fun (acc : List PyStr × Option PyStr) a =>
      match a with
      | .starred s => (acc.1, some s)
      | .plain s => (acc.1 ++ [s], acc.2)) ([], none)
    let kwargs := kws.foldl (fun d kw => dictSet d kw.arg kw.value) []
    let star_kwargs := dictGet kwargs none
    .quad acc.1 (dictPop kwargs none) acc.2 star_kwargs

/-- `_scope.Scope`, restricted to the data the claims depend on: the module
name (`''` models a missing module, `getattr(module, '__name__', '__main__')`
otherwise), the names of the scopelist entries (innermost first; the
synthetic bodies are irrelevant to `dot_string`, `unscoped` and equality),
and the disambiguating identifier `id_`. -/
structure Scope where
  module_name : PyStr
  scopelist : List PyStr
  id_ : Option PyStr
deriving DecidableEq, Repr

/-- `Scope.empty()`: no module, no nesting, no id. -/
def Scope.empty : Scope := ⟨[], [], none⟩

/-- `Scope.dot_string`: `".".join` of the module name and the scopelist names
outermost first. -/
def Scope.dot_string (s : Scope) : PyStr :=
  pyJoin (".".toList) (s.module_name :: s.scopelist.reverse)

/-- Decimal digits of a positive number, most significant first (helper for
`natRepr`, structured with fuel so it reduces definitionally). -/
def natReprAux : Nat → Nat → List Char
  | 0, _ => []
  | _ + 1, 0 => []
  | fuel + 1, n + 1 => natReprAux fuel ((n + 1) / 10) ++ [Nat.digitChar ((n + 1) % 10)]

/-- Python `str(n)` for a natural number. -/
def natRepr (n : Nat) : PyStr :=
  if n = 0 then [Char.ofNat 48] else natReprAux n n

/-- `Scope.index`: position of this scope's `id_` in the sorted registry of
ids recorded for this scope's dot-string (`sorted(self._counts[self.dot_string()]).index(self.id_)`).
The registry value `ids` — the global mutable `Scope._counts` state — is
passed explicitly. -/
def Scope.index (ids : List (Option PyStr)) (s : Scope) : Nat :=
  ids.indexOf s.id_

/-- `Scope._formatted_index`: empty for index 0, `_<index>` otherwise. -/
def Scope.formatted_index (ids : List (Option PyStr)) (s : Scope) : PyStr :=
  if Scope.index ids s = 0 then [] else '_' :: natRepr (Scope.index ids s)

/-- `Scope.__repr__` / `str(scope)`: `Scope[<dot_string><formatted_index>]`. -/
def Scope.reprStr (ids : List (Option PyStr)) (s : Scope) : PyStr :=
  ("Scope[".toList) ++ s.dot_string ++ Scope.formatted_index ids s ++ ("]".toList)

/-- `Scope.__eq__`: `str(self) == str(other)`.  `counts` maps a dot-string to
the sorted id registry for that key (the global `Scope._counts` state). -/
def Scope.eq (counts : PyStr → List (Option PyStr)) (s1 s2 : Scope) : Bool :=
  Scope.reprStr (counts s1.dot_string) s1 == Scope.reprStr (counts s2.dot_string) s2

/-- `self.module_name.replace(".", "_")`. -/
def dotToUnderscore (s : PyStr) : PyStr :=
  s.map (fun c => if c = '.' then '_' else c)

/-- `Scope.unscoped`: flattened identifier for a variable of this scope —
the bare name at the top level of the main (or missing) module, otherwise
the `"_"`-join of the dot-replaced module name and the scopelist names,
the formatted index, an underscore and the variable name. -/
def Scope.unscoped (ids : List (Option PyStr)) (s : Scope) (varname : PyStr) : PyStr :=
  if s.scopelist = [] ∧ (s.module_name = [] ∨ s.module_name = ("__main__".toList)) then varname
  else
    pyJoin ("_".toList) (dotToUnderscore s.module_name :: s.scopelist)
      ++ Scope.formatted_index ids s ++ '_' :: varname

/-- `_scope.ScopedName`: a (possibly dotted) name, its scope, an optional
position ceiling and an optional interactive-cell ceiling. -/
structure ScopedName where
  name : PyStr
  scope : Scope
  pos : Option (Nat × Nat)
  cell_no : Option Nat
deriving DecidableEq, Repr

/-- `ScopedName.variants`: the dotted prefixes of the name, shortest first
(`'.'.join(splits[:ind] + [split])` for each `(ind, split)` in
`enumerate(name.split('.'))`). -/
def ScopedName.variants (sn : ScopedName) : List PyStr :=
  let splits := pySplit '.' sn.name
  splits.enum.map (fun is => pyJoin (".".toList) (splits.take is.1 ++ [is.2]))

/-- An `ast.alias` of an import statement. -/
structure ImportAlias where
  name : PyStr
  asname : Option PyStr
deriving DecidableEq, Repr

/-- An assignment target: a plain name, a tuple of targets, or any other
target form (attribute, subscript, starred, ...). -/
inductive Target where
  | name : PyStr → Target
  | tuple : List Target → Target
  | other : Target

/-- A statement as searched by the `_finder` module.  Each constructor
carries the statement's `(lineno, col_offset)`; `assign`, `annAssign`,
`funcdef` and `classdef` also carry the source segment of the statement
(modeling `get_source_segment` / the `_source` attribute of synthetic
assignments; for function and class definitions the segment stands for the
decorator-restored, indentation-fixed deparse result).  `withS` carries, for
each `with`-item, the `as`-target name if it is a plain name, and the body
statements.  `exprOther` stands for any other statement form. -/
inductive Stmt where
  | assign : List Target → Nat × Nat → PyStr → Stmt
  | annAssign : Target → Nat × Nat → PyStr → Stmt
  | funcdef : PyStr → Nat × Nat → PyStr → Stmt
  | classdef : PyStr → Nat × Nat → PyStr → Stmt
  | importS : List ImportAlias → Nat × Nat → Stmt
  | importFrom : Option PyStr → List ImportAlias → Nat × Nat → Stmt
  | withS : List (Option PyStr) → List Stmt → Nat × Nat → Stmt
  | exprOther : Nat × Nat → Stmt

/-- The `(lineno, col_offset)` of a statement (`_ast_utils.get_position`). -/
def Stmt.pos : Stmt → Nat × Nat
  | .assign _ p _ => p
  | .annAssign _ p _ => p
  | .funcdef _ p _ => p
  | .classdef _ p _ => p
  | .importS _ p => p
  | .importFrom _ _ p => p
  | .withS _ _ p => p
  | .exprOther p => p

mutual

/-- `_AssignFinder._parse_target`: does this target bind `v`? -/
def parseTarget (v : PyStr) : Target → Bool
  | .name id => id == v
  | .tuple elts => parseTargetList v elts
  | .other => false

/-- `parseTarget` over the elements of a tuple target. -/
def parseTargetList (v : PyStr) : List Target → Bool
  | [] => false
  | t :: ts => parseTarget v t || parseTargetList v ts

end

/-- The five `_ThingFinder` subclasses, in definition (= trial) order. -/
inductive FinderKind where
  | funcdefF | classdefF | importF | importFromF | assignF
deriving DecidableEq, Repr

/-- `finder._result` after a successful visit: the found statement for the
function-def, class-def and assign finders, the found alias for the import
finders (`_ImportFromFinder` keeps the `(module, alias)` pair). -/
inductive Found where
  | stmtF : Stmt → Found
  | impF : ImportAlias → Found
  | impFromF : Option PyStr → ImportAlias → Found

/-- Errors that escape the finder: the fatal unsupported-construct
`NotImplementedError` of `_ThingFinder.visit_With` (carrying the searched
name), and `NameNotFound` (carrying the searched `ScopedName`). -/
inductive FindErr where
  | notImplemented : PyStr → FindErr
  | nameNotFound : ScopedName → FindErr

mutual

/-- One `finder.visit(stmt)` call of finder class `f` searching `var_name`
`v`, with `acc` the current `_result` instance state.  A `with` statement
first raises if any of its items binds `v` in the header, then visits the
body statements in order (later matches overwrite `_result`); functions and
classes are matched by name by their respective finders only; imports by
the importing finders; assignments (including tuple targets) and annotated
assignments by the assign finder; other statements leave `_result`
unchanged. -/
def visitStmt (f : FinderKind) (v : PyStr) (acc : Option Found) :
    Stmt → Except FindErr (Option Found)
  | .withS items body _ =>
      if items.any (fun ov => ov == some v) then
        Except.error (FindErr.notImplemented v)
      else visitBody f v acc body
  | .funcdef n p seg =>
      pure (if f = .funcdefF ∧ n = v then some (.stmtF (.funcdef n p seg)) else acc)
  | .classdef n p seg =>
      pure (if f = .classdefF ∧ n = v then some (.stmtF (.classdef n p seg)) else acc)
  | .importS names _ =>
      pure (match f with
        | .importF =>
            match names.find? (fun a => a.asname == some v || (a.asname == none && a.name == v)) with
            | some a => some (.impF a)
            | none => acc
        | _ => acc)
  | .importFrom m names _ =>
      pure (match f with
        | .importFromF =>
            match names.find? (fun a => a.asname == some v || (a.asname == none && a.name == v)) with
            | some a => some (.impFromF m a)
            | none => acc
        | _ => acc)
  | .assign targets p seg =>
      pure (if f = .assignF ∧ parseTargetList v targets then some (.stmtF (.assign targets p seg)) else acc)
  | .annAssign t p seg =>
      pure (if f = .assignF ∧ parseTarget v t then some (.stmtF (.annAssign t p seg)) else acc)
  | .exprOther _ => pure acc

/-- Visit each statement of a `with` body in order, threading `_result`. -/
def visitBody (f : FinderKind) (v : PyStr) (acc : Option Found) :
    List Stmt → Except FindErr (Option Found)
  | [] => pure acc
  | s :: rest => do
      let r ← visitStmt f v acc s
      visitBody f v r rest

end

/-- `finder.deparse()`: the source snippet for the found thing.  Import
deparses are synthesized from the alias; the other finders produce the
statement's carried segment. -/
def deparseFound : Found → PyStr
  | .stmtF (.assign _ _ seg) => seg
  | .stmtF (.annAssign _ _ seg) => seg
  | .stmtF (.funcdef _ _ seg) => seg
  | .stmtF (.classdef _ _ seg) => seg
  | .stmtF _ => []
  | .impF a =>
      ("import ".toList) ++ a.name
        ++ (match a.asname with | some asn => (" as ".toList) ++ asn | none => [])
  | .impFromF m a =>
      ("from ".toList) ++ (match m with | none => ("None".toList) | some mm => mm)
        ++ (" import ".toList) ++ a.name
        ++ (match a.asname with | some asn => (" as ".toList) ++ asn | none => [])

/-- `finder.node()` result: the found node plus its `_globalscope` flag.
The import finders re-parse their deparse, so the node is a fresh
single-alias import statement positioned at line 1, column 0, flagged
`_globalscope` when the alias has no `asname`. -/
structure NodeRes where
  stmt : Stmt
  globalscope : Bool

/-- Build the `node()` result from `_result`. -/
def nodeFound : Found → NodeRes
  | .stmtF s => ⟨s, false⟩
  | .impF a => ⟨.importS [a] (1, 0), a.asname == none⟩
  | .impFromF m a => ⟨.importFrom m [a] (1, 0), a.asname == none⟩

/-- `_ThingFinder.__subclasses__()`, in class-definition order. -/
def finder_clss : List FinderKind :=
  [.funcdefF, .classdefF, .importF, .importFromF, .assignF]

/-- `_finder.replace_star_imports`: expand `from X import *` into the names
exported by `X`, looked up through the `starExp` oracle (which models
`sys.modules[...]` introspection). -/
def replace_star_imports (starExp : Option PyStr → List PyStr) : List Stmt → List Stmt :=
  List.map (fun s =>
    match s with
    | .importFrom m names p =>
        match names with
        | a :: rest =>
            if a.name == ("*".toList) then
              .importFrom m ((starExp m).map (fun n => ⟨n, none⟩)) p
            else .importFrom m (a :: rest) p
        | [] => .importFrom m [] p
    | s => s)

/-- Strict lexicographic "starts before" on `(lineno, col_offset)` pairs:
`pos.lineno < line or (pos.lineno == line and pos.col_offset < col)`. -/
def posLt (a b : Nat × Nat) : Bool :=
  a.1 < b.1 || (a.1 == b.1 && a.2 < b.2)

/-- The search loop of `_finder.statements_before`: drop leading statements
until the first one starting strictly before `lc`, keep the rest; empty if
none qualifies. -/
def statements_before_go (lc : Nat × Nat) : List Stmt → List Stmt
  | [] => []
  | s :: rest => if posLt s.pos lc then s :: rest else statements_before_go lc rest

/-- `_finder.statements_before`: all statements when there is no position
ceiling, otherwise the suffix starting at the first statement strictly
before the ceiling. -/
def statements_before (statements : List Stmt) (pos : Option (Nat × Nat)) : List Stmt :=
  match pos with
  | none => statements
  | some lc => statements_before_go lc statements

/-- Inner loop of `find_scopedname_in_source`: try each finder class in
order on one statement for one variant name; the first finder that found
something wins. -/
def tryVariant (v : PyStr) (stmt : Stmt) : List FinderKind → Except FindErr (Option Found)
  | [] => pure none
  | f :: fs => do
      let r ← visitStmt f v none stmt
      match r with
      | some found => pure (some found)
      | none => tryVariant v stmt fs

/-- The result triple of `find_scopedname_in_source`: source snippet, found
node and refined `ScopedName`. -/
structure FindResult where
  deparse : PyStr
  node : NodeRes
  name : ScopedName

/-- Middle loop of `find_scopedname_in_source`: try the dotted-name variants
in order (shortest prefix first) on one candidate statement; on a hit,
build the result triple with the found node's position as the new
ceiling. -/
def tryVariants (scope : Scope) (stmt : Stmt) : List PyStr → Except FindErr (Option FindResult)
  | [] => pure none
  | v :: vs => do
      match ← tryVariant v stmt finder_clss with
      | some found =>
          let nr := nodeFound found
          pure (some ⟨deparseFound found, nr, ⟨v, scope, some nr.stmt.pos, none⟩⟩)
      | none => tryVariants scope stmt vs

/-- Outer loop of `find_scopedname_in_source`: statements most recent
first. -/
def searchStatements (scope : Scope) (vs : List PyStr) :
    List Stmt → Except FindErr (Option FindResult)
  | [] => pure none
  | s :: rest => do
      match ← tryVariants scope s vs with
      | some r => pure (some r)
      | none => searchStatements scope vs rest

/-- `_finder.find_scopedname_in_source`: expand star imports, then walk the
module body in reverse, bounded by the name's position ceiling, trying each
dotted variant and each finder class per statement; raise `NameNotFound`
when nothing matches. -/
def find_scopedname_in_source (starExp : Option PyStr → List PyStr) (sn : ScopedName)
    (tree : List Stmt) : Except FindErr FindResult := do
  let tree2 := replace_star_imports starExp tree
  match ← searchStatements sn.scope sn.variants (statements_before tree2.reverse sn.pos) with
  | some r => pure r
  | none => Except.error (FindErr.nameNotFound sn)

/-- Star-import oracle for modules exporting nothing (used for concrete
searches that contain no star imports). -/
def starExpNone : Option PyStr → List PyStr := fun _ => []

/-- Signature of `def f(a, b, *, c=3)` (spec scenario for keyword-only
defaults with captured `**kwargs`). -/
def sigC1 : Signature :=
  ⟨["a".toList, "b".toList], [], [], [("c".toList, "3".toList)], none, none, false⟩

/-- Signature of `def f(*, a=100, b=2)` (the repository's own test
`test_get_call_assignments_keyword_only_via_pos_raises` feeds it one
positional argument and expects a `ValueError`). -/
def sigC2 : Signature :=
  ⟨[], [], [], [("a".toList, "100".toList), ("b".toList, "2".toList)], none, none, false⟩

/-- The statement `import a.b, a`: a single statement defining both the full
dotted name `a.b` and its proper prefix `a`. -/
def stmtC3 : Stmt := .importS [⟨"a.b".toList, none⟩, ⟨"a".toList, none⟩] (1, 0)

/-- The searched name `a.b` (empty scope, no ceilings). -/
def snC3 : ScopedName := ⟨"a.b".toList, Scope.empty, none, none⟩

/-- A registry state of `Scope._counts` with two ids recorded for the
dot-string `m` (sorted). -/
def counts6 : PyStr → List (Option PyStr) :=
  fun k => if k = ("m".toList) then [some ("a".toList), some ("b".toList)] else []

/-- A scope `m` with id `a` (index 0 in `counts6`). -/
def s6a : Scope := ⟨"m".toList, [], some ("a".toList)⟩

/-- A scope `m` with id `b` (index 1 in `counts6`). -/
def s6b : Scope := ⟨"m".toList, [], some ("b".toList)⟩

/-- Sorted id registry holding the two ids `i1` and `i2`. -/
def ids7 : List (Option PyStr) := [some ("i1".toList), some ("i2".toList)]

/-- Top-level `__main__` scope with id `i1`. -/
def s7a : Scope := ⟨"__main__".toList, [], some ("i1".toList)⟩

/-- Top-level `__main__` scope with id `i2`. -/
def s7b : Scope := ⟨"__main__".toList, [], some ("i2".toList)⟩

/-- Scope `__main__.f` with id `i1`. -/
def s7c : Scope := ⟨"__main__".toList, ["f".toList], some ("i1".toList)⟩

/-- Scope `__main__.f` with id `i2`. -/
def s7d : Scope := ⟨"__main__".toList, ["f".toList], some ("i2".toList)⟩

/-- Result of searching `a.b` in `import a.b, a`: the prefix `a`'s
definition (deparse `import a`, reparsed node at line 1 column 0, flagged
global-scope). -/
def rC3 : FindResult :=
  ⟨"import a".toList,
   ⟨Stmt.importS [ImportAlias.mk ("a".toList) none] (1, 0), true⟩,
   ⟨"a".toList, Scope.empty, some (1, 0), none⟩⟩

/-- The module body `a = 1` (line 2), `b = a` (line 3), `a = b` (line 4). -/
def treeC5 : List Stmt :=
  [Stmt.assign [Target.name ("a".toList)] (2, 0) ("a = 1".toList),
   Stmt.assign [Target.name ("b".toList)] (3, 0) ("b = a".toList),
   Stmt.assign [Target.name ("a".toList)] (4, 0) ("a = b".toList)]

/-- The search for `a` with position ceiling `(4, 0)` (the repository's
`test_above_line` scenario). -/
def snC5 : ScopedName := ⟨"a".toList, Scope.empty, some (4, 0), none⟩

/-- The expected result of that search: the `a = 1` statement at `(2, 0)`. -/
def rC5 : FindResult :=
  ⟨"a = 1".toList,
   ⟨Stmt.assign [Target.name ("a".toList)] (2, 0) ("a = 1".toList), false⟩,
   ⟨"a".toList, Scope.empty, some (2, 0), none⟩⟩

/-! ## Lemmas about the string model -/

theorem pySplit_ne_nil (sep : Char) (l : List Char) : pySplit sep l ≠ [] := by
  cases l with
  | nil => simp [pySplit]
  | cons c rest =>
    simp only [pySplit]
    split
    · simp
    · split <;> simp

theorem length_pySplit (sep : Char) (l : List Char) :
    (pySplit sep l).length = l.count sep + 1 := by
  induction l with
  | nil => simp [pySplit]
  | cons c rest ih =>
    simp only [pySplit]
    by_cases h : c = sep
    · subst h; simp [List.count_cons, ih]
    · rw [if_neg h]
      cases hs : pySplit sep rest with
      | nil => exact absurd hs (pySplit_ne_nil sep rest)
      | cons w ws =>
        have := ih
        rw [hs] at this
        simp only [List.length_cons] at this ⊢
        simp [List.count_cons, h, this]

theorem pySplit_of_count_zero (sep : Char) (l : List Char) (h : l.count sep = 0) :
    pySplit sep l = [l] := by
  induction l with
  | nil => simp [pySplit]
  | cons c rest ih =>
    have hc : ¬ c = sep := by
      intro hc; subst hc; simp [List.count_cons] at h
    have hr : rest.count sep = 0 := by
      simp [List.count_cons, hc] at h; omega
    simp [pySplit, hc, ih hr]

theorem takeWhile_append_of_all {α : Type} (p : α → Bool) (xs ys : List α)
    (h : ∀ x ∈ xs, p x = true) :
    (xs ++ ys).takeWhile p = xs ++ ys.takeWhile p := by
  induction xs with
  | nil => simp
  | cons a as ih =>
    have ha := h a (by simp)
    simp only [List.cons_append, List.takeWhile_cons, ha, if_pos]
    rw [ih (fun x hx => h x (by simp [hx]))]

theorem takeWhile_append_of_exists_false {α : Type} (p : α → Bool) (xs ys : List α)
    (h : ∃ x ∈ xs, p x = false) :
    (xs ++ ys).takeWhile p = xs.takeWhile p := by
  induction xs with
  | nil => simp at h
  | cons a as ih =>
    by_cases ha : p a = true
    · simp only [List.cons_append, List.takeWhile_cons, ha, if_pos]
      rcases h with ⟨x, hx, hpx⟩
      rcases List.mem_cons.mp hx with rfl | hx'
      · rw [ha] at hpx; cases hpx
      · rw [ih ⟨x, hx', hpx⟩]
    · have ha' : p a = false := by
        cases hpa : p a
        · rfl
        · exact absurd hpa ha
      simp [List.takeWhile_cons, ha']

theorem getLastD_of_ne_nil {α : Type} {l : List α} (h : l ≠ []) (a b : α) :
    l.getLastD a = l.getLastD b := by
  cases l with
  | nil => cases h rfl
  | cons x xs => rfl

theorem getLastD_cons_of_ne_nil {α : Type} {l : List α} (h : l ≠ []) (x d : α) :
    (x :: l).getLastD d = l.getLastD d := by
  cases l with
  | nil => cases h rfl
  | cons y ys => rfl

theorem takeWhile_append_cons_false {α : Type} (p : α → Bool) (xs ys : List α) (c : α)
    (hc : p c = false) :
    (xs ++ c :: ys).takeWhile p = xs.takeWhile p := by
  induction xs with
  | nil => simp [List.takeWhile_cons, hc]
  | cons a as ih =>
    by_cases ha : p a = true
    · simp [List.takeWhile_cons, ha, ih]
    · have ha' : p a = false := by
        cases hpa : p a
        · rfl
        · exact absurd hpa ha
      simp [List.takeWhile_cons, ha']

theorem getLastD_pySplit (sep : Char) (l : List Char) :
    (pySplit sep l).getLastD [] = (l.reverse.takeWhile (fun c => ! (c == sep))).reverse := by
  induction l with
  | nil => simp [pySplit]
  | cons c rest ih =>
    have hrev : (c :: rest).reverse = rest.reverse ++ c :: [] := by simp
    by_cases hc : c = sep
    · simp only [pySplit, if_pos hc]
      rw [getLastD_cons_of_ne_nil (pySplit_ne_nil sep rest), ih, hrev,
        takeWhile_append_cons_false]
      simp [hc]
    · simp only [pySplit, if_neg hc]
      cases hs : pySplit sep rest with
      | nil => exact absurd hs (pySplit_ne_nil sep rest)
      | cons w ws =>
        cases ws with
        | nil =>
          have hcount : rest.count sep = 0 := by
            have := length_pySplit sep rest
            rw [hs] at this
            simp at this
            omega
          have hw : w = rest := by
            have := pySplit_of_count_zero sep rest hcount
            rw [hs] at this
            simpa using this
          have hall : ∀ x ∈ rest.reverse, (fun c => ! (c == sep)) x = true := by
            intro x hx
            have hxmem : x ∈ rest := List.mem_reverse.mp hx
            have hxne : x ≠ sep := by
              intro hxe; subst hxe
              exact absurd hxmem (List.count_eq_zero.mp hcount)
            simp [hxne]
          rw [hrev, takeWhile_append_of_all _ _ _ hall]
          simp [hw, List.takeWhile_cons, hc]
        | cons w2 ws2 =>
          have hmem : sep ∈ rest := by
            by_contra hnot
            have hcount : rest.count sep = 0 := List.count_eq_zero.mpr hnot
            have := pySplit_of_count_zero sep rest hcount
            rw [hs] at this
            simp at this
          have hLHS : ((c :: w) :: w2 :: ws2).getLastD ([] : List Char)
              = (w2 :: ws2).getLastD [] :=
            getLastD_cons_of_ne_nil (by simp) _ _
          have hIH : (w2 :: ws2).getLastD ([] : List Char)
              = (rest.reverse.takeWhile (fun c => ! (c == sep))).reverse := by
            rw [← ih, hs]
            exact (getLastD_cons_of_ne_nil (by simp) w []).symm
          rw [hLHS, hIH, hrev,
            takeWhile_append_of_exists_false _ _ _
              ⟨sep, List.mem_reverse.mpr hmem, by simp⟩]

theorem lastFragLen_append_of_count_zero (a seg : PyStr) (h : seg.count '\n' = 0) :
    lastFragLen '\n' (a ++ seg) = lastFragLen '\n' a + seg.length := by
  unfold lastFragLen
  rw [getLastD_pySplit, getLastD_pySplit, List.reverse_append,
    takeWhile_append_of_all _ seg.reverse a.reverse ?hall]
  · simp [Nat.add_comm]
  case hall =>
    intro x hx
    have hxmem : x ∈ seg := List.mem_reverse.mp hx
    have hxne : x ≠ '\n' := by
      intro hxe; subst hxe
      exact absurd hxmem (List.count_eq_zero.mp h)
    simp [hxne]

/-- C9: for any text and any character span `(s, e)` with `0 ≤ s ≤ e ≤ len(text)`,
`span_to_pos` yields a `Position` whose end dominates or equals its start:
either the end line is strictly greater, or the lines agree and the end
column is at least the start column. -/
theorem span_to_pos_end_dominates (text : PyStr) (s e : Nat)
    (h0 : s ≤ e) (h1 : e ≤ text.length) :
    (span_to_pos (s, e) text).end_lineno > (span_to_pos (s, e) text).lineno ∨
    ((span_to_pos (s, e) text).end_lineno = (span_to_pos (s, e) text).lineno ∧
      (span_to_pos (s, e) text).end_col_offset ≥ (span_to_pos (s, e) text).col_offset) := by
  have hsplit : text.take e = text.take s ++ (text.drop s).take (e - s) := by
    have h2 : text.take (s + (e - s)) = text.take s ++ (text.drop s).take (e - s) :=
      List.take_add ..
    rw [Nat.add_sub_cancel' h0] at h2
    exact h2
  have h1' : e ≤ text.length := h1
  simp only [span_to_pos]
  rw [hsplit, List.count_append]
  by_cases h : ((text.drop s).take (e - s)).count '\n' = 0
  · right
    refine ⟨by simp [h], ?_⟩
    rw [lastFragLen_append_of_count_zero _ _ h]
    omega
  · left
    omega

/-- Closed instance of the C9 theorem at a concrete text and span. -/
theorem span_to_pos_end_dominates_witness :
    (span_to_pos (1, 4) ("ab\ncd".toList)).end_lineno > (span_to_pos (1, 4) ("ab\ncd".toList)).lineno ∨
    ((span_to_pos (1, 4) ("ab\ncd".toList)).end_lineno = (span_to_pos (1, 4) ("ab\ncd".toList)).lineno ∧
      (span_to_pos (1, 4) ("ab\ncd".toList)).end_col_offset ≥ (span_to_pos (1, 4) ("ab\ncd".toList)).col_offset) :=
  span_to_pos_end_dominates ("ab\ncd".toList) 1 4 (by decide) (by decide)

/-! ## Lemmas about `pyJoin` and `ScopedName.variants` -/

theorem pyJoin_append_last (sep : List Char) (xs : List (List Char)) (y : List Char)
    (h : xs ≠ []) :
    pyJoin sep (xs ++ [y]) = pyJoin sep xs ++ sep ++ y := by
  induction xs with
  | nil => cases h rfl
  | cons a as ih =>
    cases as with
    | nil => simp [pyJoin]
    | cons b bs =>
      have step := ih (by simp)
      calc pyJoin sep ((a :: b :: bs) ++ [y])
          = a ++ sep ++ pyJoin sep (b :: bs ++ [y]) := by rfl
        _ = a ++ sep ++ (pyJoin sep (b :: bs) ++ sep ++ y) := by rw [step]
        _ = pyJoin sep (a :: b :: bs) ++ sep ++ y := by
              show _ = (a ++ sep ++ pyJoin sep (b :: bs)) ++ sep ++ y
              simp [List.append_assoc]

theorem variants_length (sn : ScopedName) :
    sn.variants.length = sn.name.count '.' + 1 := by
  unfold ScopedName.variants
  simp [length_pySplit]

theorem variants_getD (sn : ScopedName) (i : Nat) (hi : i < sn.variants.length) :
    sn.variants.getD i [] = pyJoin (".".toList) ((pySplit '.' sn.name).take (i + 1)) := by
  unfold ScopedName.variants at hi ⊢
  simp only [List.length_map] at hi
  have hi' : i < (pySplit '.' sn.name).enum.length := hi
  have hi'' : i < (pySplit '.' sn.name).length := by
    have := List.enum_length (l := pySplit '.' sn.name)
    omega
  rw [List.getD_eq_getElem _ _ (by simpa using hi)]
  rw [List.getElem_map]
  rw [List.getElem_enum]
  congr 1
  rw [List.take_succ]
  congr 1
  rw [List.getElem?_eq_getElem hi'']
  rfl

theorem pyJoin_take_succ_isPrefix (sep : List Char) (l : List (List Char)) (j : Nat)
    (hl : l ≠ []) :
    List.IsPrefix (pyJoin sep (l.take (j + 1))) (pyJoin sep (l.take (j + 2))) := by
  by_cases hlen : j + 1 < l.length
  · have : l.take (j + 2) = l.take (j + 1) ++ [l.get ⟨j + 1, hlen⟩] := by
      rw [List.take_succ]
      congr 1
      rw [List.getElem?_eq_getElem hlen]
      rfl
    rw [this, pyJoin_append_last]
    · rw [List.append_assoc]
      exact List.prefix_append _ _
    · intro hnil
      have : (l.take (j + 1)).length = 0 := by rw [hnil]; rfl
      rw [List.length_take] at this
      have : l.length = 0 := by omega
      exact hl (List.length_eq_zero.mp this)
  · rw [List.take_of_length_le (by omega), List.take_of_length_le (by omega)]

theorem pyJoin_take_isPrefix (sep : List Char) (l : List (List Char)) (i j : Nat)
    (hij : i ≤ j) (hl : l ≠ []) :
    List.IsPrefix (pyJoin sep (l.take (i + 1))) (pyJoin sep (l.take (j + 1))) := by
  induction j with
  | zero =>
    have : i = 0 := by omega
    subst this
    exact List.prefix_refl _
  | succ j ih =>
    rcases Nat.lt_or_ge i (j + 1) with h | h
    · exact (ih (by omega)).trans (pyJoin_take_succ_isPrefix sep l j hl)
    · have : i = j + 1 := by omega
      subst this
      exact List.prefix_refl _

/-- C8: `variants()` of a name with `k` dots is the prefix chain, shortest
first: it has length `k + 1`, every entry is a prefix of all later entries,
and for the name `a.b.c` it is exactly `["a", "a.b", "a.b.c"]`. -/
theorem variants_prefix_chain (sn : ScopedName) (i j : Nat) (hij : i ≤ j)
    (hj : j < sn.variants.length) :
    sn.variants.length = sn.name.count '.' + 1 ∧
    List.IsPrefix (sn.variants.getD i []) (sn.variants.getD j []) ∧
    (ScopedName.mk ("a.b.c".toList) Scope.empty none none).variants
      = ["a".toList, "a.b".toList, "a.b.c".toList] := by
  refine ⟨variants_length sn, ?_, by rfl⟩
  rw [variants_getD sn i (by omega), variants_getD sn j hj]
  exact pyJoin_take_isPrefix _ _ i j hij (pySplit_ne_nil '.' sn.name)

/-- Closed instance of the C8 theorem for the name `a.b`. -/
theorem variants_prefix_chain_witness :
    (ScopedName.mk ("a.b".toList) Scope.empty none none).variants.length
        = ("a.b".toList).count '.' + 1 ∧
    List.IsPrefix ((ScopedName.mk ("a.b".toList) Scope.empty none none).variants.getD 0 [])
      ((ScopedName.mk ("a.b".toList) Scope.empty none none).variants.getD 1 []) ∧
    (ScopedName.mk ("a.b.c".toList) Scope.empty none none).variants
      = ["a".toList, "a.b".toList, "a.b.c".toList] :=
  variants_prefix_chain (ScopedName.mk ("a.b".toList) Scope.empty none none) 0 1
    (by decide) (by decide)

/-! ## Call-argument binding (`Signature.get_call_assignments`) -/

/-- C1: evaluating the code at the spec's scenario — signature
`(a, b, *, c=3)` called with positional `(1,)`, no keywords, and
`star_kwargs` bound to the captured name `kw` — the assignment synthesized
for the keyword-only parameter `c` is the bare default `3`, not the
`kw.get('c', 3)` expression the spec requires: the `.get` rewriting loop
iterates only over `defaults` (positional defaults), never over
`kwonly_defaults`. -/
theorem kwonly_default_not_rewritten :
    Signature.get_call_assignments sigC1 ["1".toList] [] none (some ("kw".toList)) true false
      = Except.ok [(some ("c".toList), PyVal.str ("3".toList)),
                   (some ("a".toList), PyVal.str ("1".toList))] ∧
    PyVal.str ("3".toList)
      ≠ PyVal.str (starKwargsGetExpr ("kw".toList) ("c".toList) ("3".toList)) :=
  ⟨rfl, by decide⟩

/-- C2: evaluating the code at the failing input of the repository's own
test `test_get_call_assignments_keyword_only_via_pos_raises` — signature
`(*, a=100, b=2)` (no positional parameters, no `*args`) called with one
positional argument — `get_call_assignments` returns normally, silently
dropping the extra positional argument instead of raising. -/
theorem extra_positional_silently_dropped :
    sigC2.vararg = none ∧
    sigC2.all_argnames.length < (["1".toList] : List PyStr).length ∧
    Signature.get_call_assignments sigC2 ["1".toList] [(some ("b".toList), "2".toList)]
        none none true false
      = Except.ok [(some ("a".toList), PyVal.str ("100".toList)),
                   (some ("b".toList), PyVal.str ("2".toList))] :=
  ⟨rfl, by decide, rfl⟩

/-! ## `_get_call_signature` (C10) -/

/-- C10: the arity of `_get_call_signature`'s result depends on its input:
for a parsed call expression it returns the 4-tuple of positional sources,
keyword mapping, `*args` source and `**kwargs` source, while for any
non-call expression it returns the 2-tuple `([], {})` — so the result's
tuple arity is 4 exactly when the input is a call. -/
theorem get_call_signature_arity (e : PyExpr) :
    (e.isCall = true →
      ∃ a k sa sk, _get_call_signature e = CallSig.quad a k sa sk) ∧
    (e.isCall = false → _get_call_signature e = CallSig.pair [] []) ∧
    ((_get_call_signature e).arity = 4 ↔ e.isCall = true) := by
  cases e with
  | notCall => simp [_get_call_signature, PyExpr.isCall, CallSig.arity]
  | call cargs kws =>
    refine ⟨fun _ => ⟨_, _, _, _, rfl⟩, by simp [PyExpr.isCall], ?_⟩
    simp [_get_call_signature, PyExpr.isCall, CallSig.arity]

/-- Closed instance of the C10 theorem: the docstring's example call yields
a 4-tuple, and a non-call yields the 2-tuple. -/
theorem get_call_signature_arity_witness :
    (_get_call_signature (PyExpr.call
        [CallArg.plain ("2".toList), CallArg.starred ("[1, 2]".toList)]
        [KeywordArg.mk (some ("c".toList)) ("100".toList),
         KeywordArg.mk none ("kwargs".toList)])).arity = 4 ∧
    _get_call_signature PyExpr.notCall = CallSig.pair [] [] :=
  ⟨((get_call_signature_arity (PyExpr.call
        [CallArg.plain ("2".toList), CallArg.starred ("[1, 2]".toList)]
        [KeywordArg.mk (some ("c".toList)) ("100".toList),
         KeywordArg.mk none ("kwargs".toList)])).2.2).mpr (by decide),
   (get_call_signature_arity PyExpr.notCall).2.1 (by decide)⟩

/-! ## Lemmas about `natRepr` and `Scope` -/

theorem natReprAux_eq_digits (fuel n : Nat) (h : n ≤ fuel) :
    natReprAux fuel n = ((Nat.digits 10 n).map Nat.digitChar).reverse := by
  induction fuel generalizing n with
  | zero =>
    have : n = 0 := by omega
    subst this
    simp [natReprAux]
  | succ fuel ih =>
    cases n with
    | zero => simp [natReprAux]
    | succ m =>
      have hdiv : (m + 1) / 10 ≤ fuel := by
        have : (m + 1) / 10 < m + 1 := Nat.div_lt_self (by omega) (by norm_num)
        omega
      rw [natReprAux, ih _ hdiv,
        Nat.digits_def' (by norm_num : (1 : Nat) < 10) (Nat.succ_pos m)]
      simp

theorem digitChar_inj {d e : Nat} (hd : d < 10) (he : e < 10)
    (h : Nat.digitChar d = Nat.digitChar e) : d = e := by
  have key : ∀ x y : Fin 10, Nat.digitChar x.val = Nat.digitChar y.val → x = y := by decide
  exact congrArg Fin.val (key ⟨d, hd⟩ ⟨e, he⟩ h)

theorem map_digitChar_inj : ∀ (l1 l2 : List Nat), (∀ d ∈ l1, d < 10) → (∀ d ∈ l2, d < 10) →
    l1.map Nat.digitChar = l2.map Nat.digitChar → l1 = l2
  | [], [], _, _, _ => rfl
  | [], _ :: _, _, _, h => by simp at h
  | _ :: _, [], _, _, h => by simp at h
  | a :: l1, b :: l2, h1, h2, h => by
      simp only [List.map_cons, List.cons.injEq] at h
      have hab := digitChar_inj (h1 a (by simp)) (h2 b (by simp)) h.1
      have hrec := map_digitChar_inj l1 l2 (fun d hd => h1 d (by simp [hd]))
        (fun d hd => h2 d (by simp [hd])) h.2
      rw [hab, hrec]

theorem natRepr_pos_eq_digits {n : Nat} (hn : n ≠ 0) :
    natRepr n = ((Nat.digits 10 n).map Nat.digitChar).reverse := by
  unfold natRepr
  rw [if_neg hn]
  exact natReprAux_eq_digits n n le_rfl

theorem natRepr_ne_zero_char {n : Nat} (hn : n ≠ 0) :
    natRepr n ≠ [Char.ofNat 48] := by
  intro h
  rw [natRepr_pos_eq_digits hn] at h
  have h' : (Nat.digits 10 n).map Nat.digitChar = [Char.ofNat 48] := by
    have := congrArg List.reverse h
    simpa using this
  cases hd : Nat.digits 10 n with
  | nil => rw [hd] at h'; simp at h'
  | cons d ds =>
    rw [hd] at h'
    cases ds with
    | cons d2 ds2 => simp at h'
    | nil =>
      simp only [List.map_cons, List.map_nil, List.cons.injEq, and_true] at h'
      have hd10 : d < 10 :=
        Nat.digits_lt_base (by norm_num) (by rw [hd]; exact List.mem_cons_self d [])
      have hzero : Nat.digitChar 0 = Char.ofNat 48 := by decide
      have hd0 : d = 0 := digitChar_inj hd10 (by norm_num) (h'.trans hzero.symm)
      have hzero' : n = Nat.ofDigits 10 [d] := by rw [← hd, Nat.ofDigits_digits]
      rw [hd0] at hzero'
      simp [Nat.ofDigits] at hzero'
      exact hn hzero'

theorem natRepr_inj {m n : Nat} (h : natRepr m = natRepr n) : m = n := by
  by_cases hm : m = 0 <;> by_cases hn : n = 0
  · omega
  · subst hm
    exact absurd h.symm (natRepr_ne_zero_char hn)
  · subst hn
    exact absurd h (natRepr_ne_zero_char hm)
  · rw [natRepr_pos_eq_digits hm, natRepr_pos_eq_digits hn] at h
    have h2 : (Nat.digits 10 m).map Nat.digitChar = (Nat.digits 10 n).map Nat.digitChar := by
      have := congrArg List.reverse h
      simpa using this
    have h3 : Nat.digits 10 m = Nat.digits 10 n :=
      map_digitChar_inj _ _ (fun d hd => Nat.digits_lt_base (by norm_num) hd)
        (fun d hd => Nat.digits_lt_base (by norm_num) hd) h2
    have := congrArg (Nat.ofDigits 10) h3
    rwa [Nat.ofDigits_digits, Nat.ofDigits_digits] at this

theorem natRepr_ne_nil (n : Nat) : natRepr n ≠ [] := by
  unfold natRepr
  by_cases hn : n = 0
  · simp [hn]
  · rw [if_neg hn]
    rw [natReprAux_eq_digits n n le_rfl]
    simp [Nat.digits_ne_nil_iff_ne_zero.mpr hn]

theorem indexOf_inj_beq {α : Type} [BEq α] [LawfulBEq α] :
    ∀ (l : List α) (x y : α), x ∈ l → y ∈ l → l.indexOf x = l.indexOf y → x = y
  | [], x, _, hx, _, _ => absurd hx (List.not_mem_nil x)
  | a :: l, x, y, hx, hy, h => by
      rw [List.indexOf_cons, List.indexOf_cons] at h
      cases hax : a == x with
      | true =>
        cases hay : a == y with
        | true => exact (eq_of_beq hax).symm.trans (eq_of_beq hay)
        | false => rw [hax, hay] at h; simp at h
      | false =>
        cases hay : a == y with
        | true => rw [hax, hay] at h; simp at h
        | false =>
          rw [hax, hay] at h
          simp only [cond_false] at h
          have hx' : x ∈ l := by
            rcases List.mem_cons.mp hx with rfl | hh
            · simp at hax
            · exact hh
          have hy' : y ∈ l := by
            rcases List.mem_cons.mp hy with rfl | hh
            · simp at hay
            · exact hh
          exact indexOf_inj_beq l x y hx' hy' (by omega)

theorem formatted_index_inj (ids : List (Option PyStr)) (s1 s2 : Scope)
    (h : Scope.formatted_index ids s1 = Scope.formatted_index ids s2) :
    Scope.index ids s1 = Scope.index ids s2 := by
  unfold Scope.formatted_index at h
  by_cases h1 : Scope.index ids s1 = 0 <;> by_cases h2 : Scope.index ids s2 = 0
  · omega
  · rw [if_pos h1, if_neg h2] at h
    simp at h
  · rw [if_neg h1, if_pos h2] at h
    simp at h
  · rw [if_neg h1, if_neg h2] at h
    simp only [List.cons.injEq, true_and] at h
    exact natRepr_inj h

theorem length_pyJoin (sep : List Char) : ∀ (parts : List (List Char)),
    (pyJoin sep parts).length = (parts.map List.length).sum + (parts.length - 1) * sep.length
  | [] => by simp [pyJoin]
  | [x] => by simp [pyJoin]
  | x :: y :: xs => by
      have hrec := length_pyJoin sep (y :: xs)
      show (x ++ sep ++ pyJoin sep (y :: xs)).length = _
      simp only [List.length_append, hrec, List.map_cons, List.sum_cons, List.length_cons,
        Nat.add_sub_cancel, Nat.succ_mul]
      omega

theorem dot_under_length (s : Scope) :
    (pyJoin ("_".toList) (dotToUnderscore s.module_name :: s.scopelist)).length
      = s.dot_string.length := by
  unfold Scope.dot_string
  rw [length_pyJoin, length_pyJoin]
  have h1 : ("_".toList).length = 1 := rfl
  have h2 : (".".toList).length = 1 := rfl
  simp only [List.map_cons, List.sum_cons, List.length_cons, dotToUnderscore, List.length_map,
    List.length_reverse, List.map_reverse, List.sum_reverse, h1, h2]

/-- C6 counterexample: two scopes with equal `dot_string` but distinct
registered ids compare unequal (their string representations differ in the
disambiguating index), refuting "equality is decided by the dotted path
alone". -/
theorem scope_eq_counterexample :
    Scope.eq counts6 s6a s6b = false ∧ s6a.dot_string = s6b.dot_string :=
  ⟨rfl, rfl⟩

/-- C6 amended: two scopes compare equal iff their dotted string
representations *including the numeric disambiguating-index suffix* match
(`str(self) == str(other)` where the string is
`Scope[<dot_string><formatted_index>]`). -/
theorem scope_eq_iff_dot_string_with_index (counts : PyStr → List (Option PyStr))
    (s1 s2 : Scope) :
    Scope.eq counts s1 s2 = true ↔
      s1.dot_string ++ Scope.formatted_index (counts s1.dot_string) s1
        = s2.dot_string ++ Scope.formatted_index (counts s2.dot_string) s2 := by
  unfold Scope.eq Scope.reprStr
  rw [beq_iff_eq]
  constructor
  · intro h
    have h2 := List.append_cancel_right h
    rw [List.append_assoc, List.append_assoc] at h2
    exact List.append_cancel_left h2
  · intro h
    have h2 := congrArg (fun l => ("Scope[".toList) ++ l ++ ("]".toList)) h
    simpa [List.append_assoc] using h2

/-- C7 counterexample: two physically distinct top-level `__main__` scopes
with distinct registered ids and equal dotted paths get the *same*
`unscoped` identifier — the bare variable name — because `unscoped` returns
the variable unchanged for top-level main-module scopes. -/
theorem unscoped_counterexample :
    Scope.unscoped ids7 s7a ("x".toList) = Scope.unscoped ids7 s7b ("x".toList) ∧
    Scope.unscoped ids7 s7a ("x".toList) = "x".toList ∧
    s7a.dot_string = s7b.dot_string ∧ s7a.id_ ≠ s7b.id_ :=
  ⟨rfl, rfl, rfl, by decide⟩

/-- C7 amended: for two distinct runtime scopes (distinct ids registered in
the shared per-path counter) whose dotted strings are equal and which are
*not* top-level scopes of the main (or missing) module, `unscoped` yields
distinct flattened identifiers. -/
theorem unscoped_distinct_of_distinct_ids (ids : List (Option PyStr)) (s1 s2 : Scope)
    (v : PyStr)
    (hdot : s1.dot_string = s2.dot_string)
    (hid : s1.id_ ≠ s2.id_)
    (hm1 : s1.id_ ∈ ids) (hm2 : s2.id_ ∈ ids)
    (he1 : ¬ (s1.scopelist = [] ∧ (s1.module_name = [] ∨ s1.module_name = ("__main__".toList))))
    (he2 : ¬ (s2.scopelist = [] ∧ (s2.module_name = [] ∨ s2.module_name = ("__main__".toList)))) :
    Scope.unscoped ids s1 v ≠ Scope.unscoped ids s2 v := by
  intro heq
  unfold Scope.unscoped at heq
  rw [if_neg he1, if_neg he2] at heq
  have hlen : (pyJoin ("_".toList) (dotToUnderscore s1.module_name :: s1.scopelist)).length
      = (pyJoin ("_".toList) (dotToUnderscore s2.module_name :: s2.scopelist)).length := by
    rw [dot_under_length, dot_under_length, hdot]
  rw [List.append_assoc, List.append_assoc] at heq
  have hsplit := List.append_inj heq hlen
  have hfe : Scope.formatted_index ids s1 = Scope.formatted_index ids s2 :=
    List.append_cancel_right hsplit.2
  have hidx := formatted_index_inj ids s1 s2 hfe
  unfold Scope.index at hidx
  exact hid (indexOf_inj_beq ids s1.id_ s2.id_ hm1 hm2 hidx)

/-- Closed instance of the amended C7 theorem: the two `__main__.f` scopes
with ids `i1` and `i2` get distinct unscoped identifiers. -/
theorem unscoped_distinct_witness :
    Scope.unscoped ids7 s7c ("x".toList) ≠ Scope.unscoped ids7 s7d ("x".toList) :=
  unscoped_distinct_of_distinct_ids ids7 s7c s7d ("x".toList) rfl (by decide)
    (by decide) (by decide) (by decide) (by decide)

/-! ## Lemmas about the name finder -/

theorem variants_of_no_dot (sn : ScopedName) (h : '.' ∉ sn.name) :
    sn.variants = [sn.name] := by
  unfold ScopedName.variants
  rw [pySplit_of_count_zero '.' sn.name (List.count_eq_zero.mpr h)]
  rfl

theorem visitStmt_with_binding_error (f : FinderKind) (v : PyStr) (acc : Option Found)
    (items : List (Option PyStr)) (body : List Stmt) (p : Nat × Nat)
    (hbind : some v ∈ items) :
    visitStmt f v acc (.withS items body p) = .error (.notImplemented v) := by
  unfold visitStmt
  rw [if_pos]
  exact List.any_eq_true.mpr ⟨some v, hbind, by simp⟩

theorem tryVariant_cons_error (v : PyStr) (stmt : Stmt) (f : FinderKind)
    (fs : List FinderKind) (e : FindErr) (h : visitStmt f v none stmt = .error e) :
    tryVariant v stmt (f :: fs) = .error e := by
  unfold tryVariant
  rw [h]
  rfl

theorem searchStatements_cons (scope : Scope) (vs : List PyStr) (s : Stmt)
    (rest : List Stmt) :
    searchStatements scope vs (s :: rest)
      = (tryVariants scope s vs) >>= (fun o => match o with
          | some r => pure (some r)
          | none => searchStatements scope vs rest) := rfl

theorem find_scopedname_in_source_eq (starExp : Option PyStr → List PyStr)
    (sn : ScopedName) (tree : List Stmt) :
    find_scopedname_in_source starExp sn tree
      = (searchStatements sn.scope sn.variants
          (statements_before (replace_star_imports starExp tree).reverse sn.pos)) >>=
          (fun o => match o with
            | some r => pure r
            | none => Except.error (FindErr.nameNotFound sn)) := rfl

theorem searchStatements_append_none (scope : Scope) (vs : List PyStr) :
    ∀ (pre rest : List Stmt), (∀ s ∈ pre, tryVariants scope s vs = .ok none) →
    searchStatements scope vs (pre ++ rest) = searchStatements scope vs rest
  | [], _, _ => rfl
  | s :: pre, rest, h => by
      have hs := h s (by simp)
      rw [List.cons_append, searchStatements_cons, hs]
      show searchStatements scope vs (pre ++ rest) = _
      exact searchStatements_append_none scope vs pre rest (fun t ht => h t (by simp [ht]))

/-- C4: if the backward search reaches a `with` statement whose header binds
the searched (undotted) name as an `as`-target — i.e. every more recent
candidate statement matched nothing — the finder raises the fatal
unsupported-construct error instead of returning any definition. -/
theorem with_header_binding_raises (starExp : Option PyStr → List PyStr) (sn : ScopedName)
    (tree pre post : List Stmt) (items : List (Option PyStr)) (body : List Stmt)
    (p : Nat × Nat)
    (hnodot : '.' ∉ sn.name)
    (hbind : some sn.name ∈ items)
    (hscan : statements_before (replace_star_imports starExp tree).reverse sn.pos
      = pre ++ (Stmt.withS items body p) :: post)
    (hpre : ∀ s ∈ pre, tryVariants sn.scope s [sn.name] = .ok none) :
    find_scopedname_in_source starExp sn tree
      = .error (.notImplemented sn.name) := by
  have h1 : visitStmt .funcdefF sn.name none (.withS items body p)
      = .error (.notImplemented sn.name) :=
    visitStmt_with_binding_error _ _ _ _ _ _ hbind
  have h2 : tryVariant sn.name (.withS items body p) finder_clss
      = .error (.notImplemented sn.name) :=
    tryVariant_cons_error _ _ _ _ _ h1
  have h3 : tryVariants sn.scope (.withS items body p) [sn.name]
      = .error (.notImplemented sn.name) := by
    unfold tryVariants
    rw [h2]
    rfl
  have h4 : searchStatements sn.scope [sn.name] ((Stmt.withS items body p) :: post)
      = .error (.notImplemented sn.name) := by
    unfold searchStatements
    rw [h3]
    rfl
  rw [find_scopedname_in_source_eq, variants_of_no_dot sn hnodot, hscan,
    searchStatements_append_none sn.scope [sn.name] pre _ hpre, h4]
  rfl

/-- Closed instance of the C4 theorem: searching `a` in `with f() as a: pass`
raises the unsupported-construct error. -/
theorem with_header_binding_raises_witness :
    find_scopedname_in_source starExpNone (ScopedName.mk ("a".toList) Scope.empty none none)
      [Stmt.withS [some ("a".toList)] [] (1, 0)]
      = .error (.notImplemented ("a".toList)) :=
  with_header_binding_raises starExpNone (ScopedName.mk ("a".toList) Scope.empty none none)
    [Stmt.withS [some ("a".toList)] [] (1, 0)] [] [] [some ("a".toList)] [] (1, 0)
    (by decide) (by simp) rfl (by simp)

/-- C3 counterexample: the single statement `import a.b, a` defines both the
full dotted name `a.b` (the full-path variant alone matches it, first
conjunct) and the proper prefix `a`; yet searching `a.b` returns the
definition of the prefix (`import a`, name `a`), not the full dotted path:
shorter prefixes are tried first. -/
theorem dotted_full_path_counterexample :
    tryVariant ("a.b".toList) stmtC3 finder_clss
      = .ok (some (Found.impF (ImportAlias.mk ("a.b".toList) none))) ∧
    find_scopedname_in_source starExpNone snC3 [stmtC3] = .ok rC3 ∧
    rC3.name.name = ("a".toList : PyStr) ∧
    ("a".toList : PyStr) ≠ ("a.b".toList : PyStr) :=
  ⟨rfl, rfl, rfl, by decide⟩

theorem tryVariants_shortest_first (scope : Scope) (stmt : Stmt) :
    ∀ (vs : List PyStr) (r : FindResult), tryVariants scope stmt vs = .ok (some r) →
    ∃ i, i < vs.length ∧ r.name.name = vs.getD i [] ∧
      ∀ j, j < i → tryVariant (vs.getD j []) stmt finder_clss = .ok none
  | [], r, h => by simp [tryVariants, pure, Except.pure] at h
  | v :: vs, r, h => by
      unfold tryVariants at h
      cases htv : tryVariant v stmt finder_clss with
      | error e =>
        rw [htv] at h
        simp [Bind.bind, Except.bind] at h
      | ok o =>
        cases o with
        | some found =>
          rw [htv] at h
          have hr : r = ⟨deparseFound found, nodeFound found,
              ⟨v, scope, some (nodeFound found).stmt.pos, none⟩⟩ := by
            simpa [Bind.bind, Except.bind, pure, Except.pure] using h.symm
          exact ⟨0, by simp, by rw [hr]; rfl, fun j hj => absurd hj (by omega)⟩
        | none =>
          rw [htv] at h
          have h' : tryVariants scope stmt vs = .ok (some r) := by
            simpa [Bind.bind, Except.bind] using h
          obtain ⟨i, hi, hname, hprev⟩ := tryVariants_shortest_first scope stmt vs r h'
          refine ⟨i + 1, by simpa using Nat.succ_lt_succ hi, hname, fun j hj => ?_⟩
          cases j with
          | zero => exact htv
          | succ j' => exact hprev j' (by omega)

/-- C3 amended: when the finder resolves a dotted name against a candidate
statement, the variants are tried shortest prefix first: the returned name
is the i-th variant for some i, and every strictly shorter variant matched
nothing on that statement — so if one statement defines both the full
dotted name and a proper prefix, the (shortest such) prefix's definition is
returned, not the full path's. -/
theorem variant_resolution_shortest_first (sn : ScopedName) (stmt : Stmt) (r : FindResult)
    (h : tryVariants sn.scope stmt sn.variants = .ok (some r)) :
    ∃ i, i < sn.variants.length ∧ r.name.name = sn.variants.getD i [] ∧
      ∀ j, j < i → tryVariant (sn.variants.getD j []) stmt finder_clss = .ok none :=
  tryVariants_shortest_first sn.scope stmt sn.variants r h

/-- Closed instance of the amended C3 theorem at the `import a.b, a`
statement. -/
theorem variant_resolution_shortest_first_witness :
    ∃ i, i < snC3.variants.length ∧ rC3.name.name = snC3.variants.getD i [] ∧
      ∀ j, j < i → tryVariant (snC3.variants.getD j []) stmtC3 finder_clss = .ok none :=
  variant_resolution_shortest_first snC3 stmtC3 rC3 rfl

theorem posLt_trans {a b c : Nat × Nat} (h1 : posLt a b = true) (h2 : posLt b c = true) :
    posLt a c = true := by
  simp only [posLt, Bool.or_eq_true, Bool.and_eq_true, decide_eq_true_eq, beq_iff_eq]
    at h1 h2 ⊢
  omega

theorem posLt_asymm {a b : Nat × Nat} (h1 : posLt a b = true) (h2 : posLt b a = true) :
    False := by
  simp only [posLt, Bool.or_eq_true, Bool.and_eq_true, decide_eq_true_eq, beq_iff_eq]
    at h1 h2
  omega

theorem statements_before_go_eq_dropWhile (lc : Nat × Nat) (l : List Stmt) :
    statements_before_go lc l = l.dropWhile (fun s => ! posLt s.pos lc) := by
  induction l with
  | nil => rfl
  | cons s rest ih =>
    unfold statements_before_go
    rw [List.dropWhile_cons]
    cases h : posLt s.pos lc with
    | true => simp [h]
    | false => simp [h, ih]

theorem mem_scan_posLt (lc : Nat × Nat) :
    ∀ (l : List Stmt), l.Pairwise (fun a b => posLt b.pos a.pos = true) →
    ∀ s ∈ statements_before_go lc l, posLt s.pos lc = true
  | [], _, s, hs => by simp [statements_before_go] at hs
  | t :: rest, hsort, s, hs => by
      rw [List.pairwise_cons] at hsort
      unfold statements_before_go at hs
      by_cases h : posLt t.pos lc = true
      · rw [if_pos h] at hs
        rcases List.mem_cons.mp hs with rfl | hmem
        · exact h
        · exact posLt_trans (hsort.1 s hmem) h
      · rw [if_neg h] at hs
        exact mem_scan_posLt lc rest hsort.2 s hs

theorem mem_scan_of_posLt (lc : Nat × Nat) (l : List Stmt) (t : Stmt)
    (ht : t ∈ l) (hp : posLt t.pos lc = true) :
    t ∈ statements_before_go lc l := by
  rw [statements_before_go_eq_dropWhile]
  have hsplit : t ∈ l.takeWhile (fun s => ! posLt s.pos lc)
      ++ l.dropWhile (fun s => ! posLt s.pos lc) := by
    rw [List.takeWhile_append_dropWhile]
    exact ht
  rcases List.mem_append.mp hsplit with h | h
  · have := List.mem_takeWhile_imp h
    rw [hp] at this
    simp at this
  · exact h

theorem searchStatements_ok_some (scope : Scope) (vs : List PyStr) :
    ∀ (l : List Stmt) (r : FindResult), searchStatements scope vs l = .ok (some r) →
    ∃ pre s post, l = pre ++ s :: post ∧
      (∀ t ∈ pre, tryVariants scope t vs = .ok none) ∧
      tryVariants scope s vs = .ok (some r)
  | [], r, h => by simp [searchStatements, pure, Except.pure] at h
  | s :: rest, r, h => by
      rw [searchStatements_cons] at h
      cases htv : tryVariants scope s vs with
      | error e => rw [htv] at h; simp [Bind.bind, Except.bind] at h
      | ok o =>
        cases o with
        | some r2 =>
          rw [htv] at h
          have hrr : r2 = r := by
            simpa [Bind.bind, Except.bind, pure, Except.pure] using h
          subst hrr
          exact ⟨[], s, rest, rfl, by simp, htv⟩
        | none =>
          rw [htv] at h
          have h' : searchStatements scope vs rest = .ok (some r) := by
            simpa [Bind.bind, Except.bind] using h
          obtain ⟨pre, s2, post, hsplit, hpre, hs2⟩ :=
            searchStatements_ok_some scope vs rest r h'
          refine ⟨s :: pre, s2, post, by simp [hsplit], ?_, hs2⟩
          intro t htm
          rcases List.mem_cons.mp htm with rfl | hm
          · exact htv
          · exact hpre t hm

theorem find_ok_inv (starExp : Option PyStr → List PyStr) (sn : ScopedName)
    (tree : List Stmt) (r : FindResult)
    (h : find_scopedname_in_source starExp sn tree = .ok r) :
    searchStatements sn.scope sn.variants
      (statements_before (replace_star_imports starExp tree).reverse sn.pos)
      = .ok (some r) := by
  rw [find_scopedname_in_source_eq] at h
  cases hs : searchStatements sn.scope sn.variants
      (statements_before (replace_star_imports starExp tree).reverse sn.pos) with
  | error e => rw [hs] at h; simp [Bind.bind, Except.bind] at h
  | ok o =>
    cases o with
    | some r2 =>
      rw [hs] at h
      have hrr : r2 = r := by
        simpa [Bind.bind, Except.bind, pure, Except.pure] using h
      rw [hrr]
    | none =>
      rw [hs] at h
      simp [Bind.bind, Except.bind, pure, Except.pure] at h

/-- C5: with a position ceiling `lc` and statements in strictly increasing
source-position order, a successful search returns the result of a
statement starting strictly before the ceiling, and every statement that
starts strictly before the ceiling but later than the winning statement
matched nothing — i.e. the definition returned comes from the latest
matching statement strictly before the ceiling, and a statement at or after
the ceiling is never the source of the result. -/
theorem position_ceiling_latest (starExp : Option PyStr → List PyStr) (sn : ScopedName)
    (tree : List Stmt) (lc : Nat × Nat) (r : FindResult)
    (hpos : sn.pos = some lc)
    (hsort : (replace_star_imports starExp tree).Pairwise
      (fun a b => posLt a.pos b.pos = true))
    (hfind : find_scopedname_in_source starExp sn tree = .ok r) :
    ∃ s ∈ replace_star_imports starExp tree,
      posLt s.pos lc = true ∧
      tryVariants sn.scope s sn.variants = .ok (some r) ∧
      ∀ t ∈ replace_star_imports starExp tree, posLt t.pos lc = true →
        posLt s.pos t.pos = true → tryVariants sn.scope t sn.variants = .ok none := by
  have hsearch := find_ok_inv starExp sn tree r hfind
  rw [hpos] at hsearch
  have hsb : statements_before (replace_star_imports starExp tree).reverse (some lc)
      = statements_before_go lc (replace_star_imports starExp tree).reverse := rfl
  rw [hsb] at hsearch
  set tree2 := replace_star_imports starExp tree with htree2
  have hrevsort : tree2.reverse.Pairwise (fun a b => posLt b.pos a.pos = true) := by
    rw [List.pairwise_reverse]
    exact hsort
  obtain ⟨pre, s, post, hsplit, hpre, hs⟩ :=
    searchStatements_ok_some sn.scope sn.variants _ r hsearch
  have hscan_sub : List.Sublist (statements_before_go lc tree2.reverse) tree2.reverse := by
    rw [statements_before_go_eq_dropWhile]
    exact List.dropWhile_sublist _
  have hscan_sorted : (statements_before_go lc tree2.reverse).Pairwise
      (fun a b => posLt b.pos a.pos = true) := hrevsort.sublist hscan_sub
  have hsmem_scan : s ∈ statements_before_go lc tree2.reverse := by
    rw [hsplit]
    simp
  have hsmem : s ∈ tree2 := List.mem_reverse.mp (hscan_sub.mem hsmem_scan)
  refine ⟨s, hsmem, mem_scan_posLt lc tree2.reverse hrevsort s hsmem_scan, hs, ?_⟩
  intro t htmem htlc hst
  have htmem_scan : t ∈ statements_before_go lc tree2.reverse :=
    mem_scan_of_posLt lc tree2.reverse t (List.mem_reverse.mpr htmem) htlc
  rw [hsplit] at htmem_scan hscan_sorted
  rcases List.mem_append.mp htmem_scan with hpre_mem | hrest
  · exact hpre t hpre_mem
  · rcases List.mem_cons.mp hrest with rfl | hpost
    · exact absurd hst (fun hh => posLt_asymm hh hh)
    · rw [List.pairwise_append] at hscan_sorted
      have hcons := hscan_sorted.2.1
      rw [List.pairwise_cons] at hcons
      exact absurd (hcons.1 t hpost) (fun hh => posLt_asymm hst hh)

/-- Closed instance of the C5 theorem at the `test_above_line` scenario:
`a = 1` / `b = a` / `a = b` with ceiling `(4, 0)` returns `a = 1`. -/
theorem position_ceiling_latest_witness :
    ∃ s ∈ replace_star_imports starExpNone treeC5,
      posLt s.pos (4, 0) = true ∧
      tryVariants snC5.scope s snC5.variants = .ok (some rC5) ∧
      ∀ t ∈ replace_star_imports starExpNone treeC5, posLt t.pos (4, 0) = true →
        posLt s.pos t.pos = true → tryVariants snC5.scope t snC5.variants = .ok none :=
  position_ceiling_latest starExpNone snC5 treeC5 (4, 0) rC5 rfl
    (by decide) rfl

end Savethis
